import Mathlib

/-!
# Verification model for the `gvt imports` command (`imports.go`)

This file gives a shallow embedding of the recursive dependency-vendoring
orchestrator of `imports.go`:

* `isLocalImport`, `parseHttpHost`, `packageIsRemoteDependency` embed the
  remote-dependency classifier (`imports.go` lines 184-202) together with the
  behaviour of its two external collaborators, `go/build.IsLocalImport` and
  `net/url.Parse` (restricted to URLs of the form `"http://" ++ name`).
* `loopF`, `importsStep`, `importsF` embed the recursive orchestrator
  `imports(dir, isRoot, manifest)` (`imports.go` lines 66-126) as a
  fuel-indexed state machine over an abstract filesystem, and `cmdImportsF`
  embeds the root entry point `cmdImports.Run` (lines 40-61).

The manifest, the source-tree crawl (`importWorker`) and the fetch operation
(`pullDependency`) are external collaborators of the orchestrator; they are
modelled abstractly through an environment `Env`, with their effects on the
manifest and the directory tree made explicit.
-/

/-! ## Character-level helpers for the classifier model -/

/-- Control characters, as rejected by Go `net/url.Parse`
(`strings.ContainsCtlByte`). -/
def isCtlChar (c : Char) : Bool := c.toNat < 32 || c.toNat == 127

def isDigitChar (c : Char) : Bool := 48 ≤ c.toNat && c.toNat ≤ 57

def isAlphaChar (c : Char) : Bool :=
  (65 ≤ c.toNat && c.toNat ≤ 90) || (97 ≤ c.toNat && c.toNat ≤ 122)

def isHexDigitChar (c : Char) : Bool :=
  isDigitChar c || (97 ≤ c.toNat && c.toNat ≤ 102) || (65 ≤ c.toNat && c.toNat ≤ 70)

/-- Numeric value of a hex digit (Go `net/url.unhex`). -/
def unhexVal (c : Char) : Nat :=
  if isDigitChar c then c.toNat - 48
  else if 97 ≤ c.toNat then c.toNat - 87
  else c.toNat - 55

/-- The single-quote character (written via its code point). -/
def squoteChar : Char := Char.ofNat 39

/-- The double-quote character (written via its code point). -/
def dquoteChar : Char := Char.ofNat 34

/-- Characters (besides alphanumerics and non-ASCII bytes) that Go
`net/url.shouldEscape` leaves unescaped in the host component: the
unreserved marks plus the sub-delims and `:[]<>"`. -/
def hostExtraChars : List Char :=
  ['-', '.', '_', '~', '!', '$', '&', squoteChar, '(', ')', '*', '+', ',',
   ';', '=', ':', '[', ']', '<', '>', dquoteChar]

def isHostChar (c : Char) : Bool :=
  isAlphaChar c || isDigitChar c || hostExtraChars.contains c

/-- Characters accepted by Go `net/url.validUserinfo`. -/
def userinfoExtraChars : List Char :=
  ['-', '.', '_', ':', '~', '!', '$', '&', squoteChar, '(', ')', '*', '+', ',',
   ';', '=', '%', '@']

def isUserinfoChar (c : Char) : Bool :=
  isAlphaChar c || isDigitChar c || userinfoExtraChars.contains c

/-- Split at the first character satisfying `p`: returns the part before it
and the part after it (the separator itself is dropped).  If no character
satisfies `p`, the whole list is the first component. -/
def splitAtFirst (p : Char → Bool) : List Char → List Char × List Char
  | [] => ([], [])
  | c :: cs =>
    if p c then ([], cs)
    else
      let r := splitAtFirst p cs
      (c :: r.1, r.2)

/-- Split at the last character satisfying `p` (Go `strings.LastIndex`):
`some (before, after)` when such a character exists, `none` otherwise. -/
def splitAtLast (p : Char → Bool) (cs : List Char) : Option (List Char × List Char) :=
  if cs.any p then
    let r := splitAtFirst p cs.reverse
    some (r.2.reverse, r.1.reverse)
  else none

/-- Well-formedness of percent escapes: every `%` is followed by two hex
digits.  This is the only way Go `net/url.unescape` can fail outside of the
host component (fragment, path and userinfo validation). -/
def validEscapes : List Char → Bool
  | [] => true
  | '%' :: a :: b :: rest => isHexDigitChar a && isHexDigitChar b && validEscapes rest
  | '%' :: [] => false
  | '%' :: [_] => false
  | _ :: rest => validEscapes rest

/-- Go `net/url.unescape` in `encodeHost` mode: rejects malformed percent
escapes, percent escapes of ASCII bytes (first hex digit `< 8`) other than
`%25`, and raw ASCII characters that are not valid host characters; non-ASCII
characters pass through. -/
def unescapeHost : List Char → Option (List Char)
  | [] => some []
  | '%' :: a :: b :: rest =>
    if isHexDigitChar a && isHexDigitChar b then
      if unhexVal a < 8 && !(a == '2' && b == '5') then none
      else
        match unescapeHost rest with
        | none => none
        | some r => some (Char.ofNat (16 * unhexVal a + unhexVal b) :: r)
    else none
  | '%' :: [] => none
  | '%' :: [_] => none
  | c :: rest =>
    if 128 ≤ c.toNat || isHostChar c then
      match unescapeHost rest with
      | none => none
      | some r => some (c :: r)
    else none

/-- Go `net/url.validOptionalPort`: empty, or `:` followed by digits only. -/
def validOptionalPortChars : List Char → Bool
  | [] => true
  | ':' :: ds => ds.all isDigitChar
  | _ => false

/-- Go `net/url.parseHost`: bracketed (IPv6) hosts need a closing bracket
followed by a valid optional port; otherwise the suffix from the last colon
must be a valid optional port; then the whole host is unescaped in host mode.
(The IPv6 zone-identifier rewriting of `%25` is not modelled; import-path
hosts are never bracketed.)  The returned host still includes the port, as in
the Go `URL.Host` field. -/
def parseHostChars (cs : List Char) : Option (List Char) :=
  match cs with
  | '[' :: _ =>
    match splitAtLast (· == ']') cs with
    | none => none
    | some (_, after) =>
      if validOptionalPortChars after then unescapeHost cs else none
  | _ =>
    match splitAtLast (· == ':') cs with
    | none => unescapeHost cs
    | some (_, after) =>
      if validOptionalPortChars (':' :: after) then unescapeHost cs else none

/-- Model of Go `net/url.Parse ("http://" ++ name)` restricted to the data the
classifier consumes: `some host` (the `URL.Host` field, as characters) when
parsing succeeds, `none` when it fails.  Mirrors the parse pipeline: control
character check, fragment split (validated), query split (unvalidated), path
split (validated), userinfo split at the last `@` (validated), host parse. -/
def parseHttpHost (name : String) : Option (List Char) :=
  let cs := name.data
  if cs.any isCtlChar then none
  else
    let fr := splitAtFirst (· == '#') cs
    if !validEscapes fr.2 then none
    else
      let qu := splitAtFirst (· == '?') fr.1
      let au := splitAtFirst (· == '/') qu.1
      if !validEscapes au.2 then none
      else
        match splitAtLast (· == '@') au.1 with
        | some (user, host) =>
          if user.all isUserinfoChar && validEscapes user then parseHostChars host
          else none
        | none => parseHostChars au.1

/-- Go `go/build.IsLocalImport`: `"."`, `".."`, or a `"./"`/`"../"` prefix. -/
def isLocalImport (name : String) : Bool :=
  name == "." || name == ".." ||
    "./".data.isPrefixOf name.data || "../".data.isPrefixOf name.data

/-- `packageIsRemoteDependency` (`imports.go` lines 184-202): local imports
are not remote; otherwise parse `"http://" ++ name` and classify as remote
iff the host component contains a literal dot.  (The `fmt.Println` debug
print at line 185 has no bearing on the returned value.) -/
def packageIsRemoteDependency (name : String) : Bool :=
  if isLocalImport name then false
  else
    match parseHttpHost name with
    | none => false
    | some host => host.contains '.'

/-! ## The orchestrator state machine

`imports.go` mutates three pieces of state observable through its interface:
the process working directory (a global, changed with `os.Chdir`), the
directory tree (extended by successful fetches), and the manifest.  We model
directories as lists of path components, the tree as the list of existing
directories, and thread the state explicitly.

External collaborators are collected in an environment `Env`:

* `collect dir` is the Tree Import Collector `importWorker` (lines 128-160):
  the deduplicated import identifiers gathered from the source files under
  `dir`, or a walk/parse error.  (Go map iteration order is arbitrary; the
  model fixes an order, which no claim depends on.)
* `fetch cwd pkg` is the external fetch `pullDependency`.  On success
  `createsDir` says whether the vendored directory `cwd/vendor/pkg` was
  materialized (the real tool always creates it; leaving it variable lets the
  model express a failing `os.Chdir` afterwards) and `hasVendor` whether the
  fetched tree ships its own `vendor` subdirectory.

Modelled from the spec: the helpers `vendorDir()`, `manifestFile()`,
`pullDependency` and `vendor.ReadManifest`/`WriteManifest` are not part of
`src/`; per §4.4 and §6 of the spec, vendor storage is the `vendor`
directory under the Working Directory Context, a successful fetch
materializes `vendor/<pkg>` there and registers `pkg` in the manifest, and
reloading the manifest after the vendor directory was deleted yields an
empty manifest. -/

/-- A directory path, as a list of components. -/
abbrev GoDir := List String

/-- An import identifier. -/
abbrev GoPkg := String

/-- Result of the external fetch operation (`pullDependency`). -/
inductive FetchRes
  | ok (createsDir : Bool) (hasVendor : Bool)
  | fail (e : String)
deriving DecidableEq

/-- The external collaborators of the orchestrator. -/
structure Env where
  collect : GoDir → Except String (List GoPkg)
  fetch : GoDir → GoPkg → FetchRes

/-- Observable state threaded through the orchestrator: the process working
directory, the set of existing directories, and the manifest (as the list of
vendored import identifiers, in insertion order). -/
structure St where
  cwd : GoDir
  fs : List GoDir
  manifest : List GoPkg
deriving DecidableEq

/-- How a call returns: normally, with a propagated error, or with the fuel
of the model exhausted (the Go recursion would still be running). -/
inductive Outcome
  | ok
  | err (e : String)
  | timeout
deriving DecidableEq

/-- Trace events: a crawl of a directory, the pacing delay, a call to the
fetch operation (recording the manifest at the moment of the call), and the
"already vendored" notice. -/
inductive Ev
  | crawl (dir : GoDir)
  | delay (pkg : GoPkg)
  | fetchCall (pkg : GoPkg) (manifestAtCall : List GoPkg)
  | notice (pkg : GoPkg)
deriving DecidableEq

/-- Result of a call: outcome, final state and emitted trace. -/
structure Res where
  outcome : Outcome
  st : St
  tr : List Ev
deriving DecidableEq

/-- `os.Chdir` with its error ignored, as at lines 115 and 123 of
`imports.go`: move if the target directory exists, otherwise stay put. -/
def chdirAttempt (s : St) (target : GoDir) : St :=
  if target ∈ s.fs then { s with cwd := target } else s

/-- The vendor-storage directory relative to a working directory. -/
def vdir (c : GoDir) : GoDir := c ++ ["vendor"]

/-- Worklist construction (lines 86-92): keep exactly the identifiers the
classifier marks as remote. -/
def filteredImports (used : List GoPkg) : List GoPkg :=
  used.filter packageIsRemoteDependency

/-- The fetch loop (lines 96-121) over the worklist.  For each entry: skip
with a notice if already in the manifest; apply the pacing delay for
`github.com` hosts; call the fetch (propagating failure immediately); on
success extend the manifest and tree, attempt to chdir into the vendored
directory (error ignored), and recurse from the resulting working directory
(`rec`), propagating its error immediately. -/
def loopF (env : Env) (rec : GoDir → St → Res) : List GoPkg → St → Res
  | [], s => ⟨.ok, s, []⟩
  | pkg :: rest, s =>
    if pkg ∈ s.manifest then
      let r := loopF env rec rest s
      ⟨r.outcome, r.st, Ev.notice pkg :: r.tr⟩
    else
      let tr1 : List Ev := if "github.com".data.isPrefixOf pkg.data then [Ev.delay pkg] else []
      match env.fetch s.cwd pkg with
      | .fail e => ⟨.err e, s, tr1 ++ [Ev.fetchCall pkg s.manifest]⟩
      | .ok creates hasVendor =>
        let newDir := s.cwd ++ ["vendor", pkg]
        let s1 : St :=
          { s with
            manifest := s.manifest ++ [pkg]
            fs := s.fs ++
              (if creates then newDir :: (if hasVendor then [vdir newDir] else []) else []) }
        let s2 := chdirAttempt s1 newDir
        let r := rec s2.cwd s2
        match r.outcome with
        | .ok =>
          let r2 := loopF env rec rest r.st
          ⟨r2.outcome, r2.st, tr1 ++ Ev.fetchCall pkg s.manifest :: (r.tr ++ r2.tr)⟩
        | o => ⟨o, r.st, tr1 ++ Ev.fetchCall pkg s.manifest :: r.tr⟩

/-- One call of `imports(dir, isRoot, manifest)` (lines 66-126), with the
recursive occurrence abstracted as `rec`: decide whether to crawl (line 79:
`isRoot` or no vendor directory under the current working directory), crawl
(propagating errors), run the fetch loop on the remote-filtered worklist,
and on normal loop exit restore the working directory to `dir` (line 123,
error ignored); error returns skip the restoration. -/
def importsStep (env : Env) (rec : GoDir → St → Res) (dir : GoDir) (isRoot : Bool)
    (s : St) : Res :=
  let doCrawl : Bool := isRoot || !(decide (vdir s.cwd ∈ s.fs))
  let crawlRes : Except String (List GoPkg) := if doCrawl then env.collect dir else .ok []
  let tr0 : List Ev := if doCrawl then [Ev.crawl dir] else []
  match crawlRes with
  | .error e => ⟨.err e, s, tr0⟩
  | .ok used =>
    let r := loopF env rec (filteredImports used.dedup) s
    match r.outcome with
    | .ok => ⟨.ok, chdirAttempt r.st dir, tr0 ++ r.tr⟩
    | o => ⟨o, r.st, tr0 ++ r.tr⟩

/-- The recursive orchestrator, indexed by fuel.  Each recursive call in the
Go code consumes one unit; `Outcome.timeout` means the fuel ran out, never
that the Go code returned.  Recursive calls always pass `isRoot = false`
(line 118). -/
def importsF (env : Env) : Nat → GoDir → Bool → St → Res
  | 0, _, _, s => ⟨.timeout, s, []⟩
  | n + 1, dir, isRoot, s => importsStep env (fun d s' => importsF env n d false s') dir isRoot s

/-- `os.RemoveAll(vendorDir())` (line 47): drop the vendor directory under
`c` and everything below it. -/
def eraseVendor (c : GoDir) (fs : List GoDir) : List GoDir :=
  fs.filter (fun p => !((vdir c).isPrefixOf p))

/-- `cmdImports.Run` (lines 40-61): read the working directory, destroy the
vendor storage, reload the manifest (empty, its file having just been
removed), and run the orchestrator from the root with `isRoot = true`.  On
success the final manifest is what `WriteManifest` persists. -/
def cmdImportsF (env : Env) (fuel : Nat) (s : St) : Res :=
  importsF env fuel s.cwd true { s with fs := eraseVendor s.cwd s.fs, manifest := [] }

/-! ## Frame properties of the state machine

Between the entry state and any exit state of a call: the directory tree
only grows, and only below the entry working directory's vendor storage;
the manifest only grows (by appending); and the working directory either is
unchanged or has moved below the entry working directory's vendor storage. -/

def FrameSt (s t : St) : Prop :=
  (∃ adds, t.fs = s.fs ++ adds ∧ ∀ q ∈ adds, vdir s.cwd <+: q) ∧
  s.manifest <+: t.manifest ∧
  (t.cwd = s.cwd ∨ vdir s.cwd <+: t.cwd)

lemma FrameSt.refl (s : St) : FrameSt s s :=
  ⟨⟨[], by simp, by simp⟩, List.prefix_refl _, Or.inl rfl⟩

lemma vdir_prefix_of_cwd_step {s : St} {c : GoDir} (h : c = s.cwd ∨ vdir s.cwd <+: c) :
    vdir s.cwd <+: vdir c := by
  rcases h with h | h
  · rw [h]
  · exact h.trans (List.prefix_append _ _)

lemma chdirAttempt_fs (s : St) (t : GoDir) : (chdirAttempt s t).fs = s.fs := by
  unfold chdirAttempt; split <;> rfl

lemma chdirAttempt_manifest (s : St) (t : GoDir) : (chdirAttempt s t).manifest = s.manifest := by
  unfold chdirAttempt; split <;> rfl

lemma chdirAttempt_cwd (s : St) (t : GoDir) :
    (chdirAttempt s t).cwd = t ∨ (chdirAttempt s t).cwd = s.cwd := by
  unfold chdirAttempt; split
  · exact Or.inl rfl
  · exact Or.inr rfl

lemma chdirAttempt_cwd_of_mem {s : St} {t : GoDir} (h : t ∈ s.fs) :
    (chdirAttempt s t).cwd = t := by
  unfold chdirAttempt; rw [if_pos h]

lemma vdir_prefix_child (c : GoDir) (pkg : GoPkg) : vdir c <+: c ++ ["vendor", pkg] := by
  have h : c ++ ["vendor", pkg] = vdir c ++ [pkg] := by simp [vdir]
  rw [h]
  exact List.prefix_append _ _

lemma FrameSt.trans {s t u : St} (h1 : FrameSt s t) (h2 : FrameSt t u) : FrameSt s u := by
  obtain ⟨⟨a1, hfs1, ha1⟩, hm1, hc1⟩ := h1
  obtain ⟨⟨a2, hfs2, ha2⟩, hm2, hc2⟩ := h2
  refine ⟨⟨a1 ++ a2, by rw [hfs2, hfs1, List.append_assoc], ?_⟩, hm1.trans hm2, ?_⟩
  · intro q hq
    rcases List.mem_append.1 hq with hq | hq
    · exact ha1 q hq
    · exact (vdir_prefix_of_cwd_step hc1).trans (ha2 q hq)
  · rcases hc2 with h | h
    · rw [h]; exact hc1
    · right
      rcases hc1 with h1 | h1
      · rw [h1] at h; exact h
      · exact (h1.trans (List.prefix_append _ _)).trans h

lemma loopF_frame (env : Env) (rec : GoDir → St → Res)
    (hrec : ∀ s : St, FrameSt s (rec s.cwd s).st) :
    ∀ (pkgs : List GoPkg) (s : St), FrameSt s (loopF env rec pkgs s).st := by
  intro pkgs
  induction pkgs with
  | nil => intro s; exact FrameSt.refl s
  | cons pkg rest ih =>
    intro s
    simp only [loopF]
    by_cases hm : pkg ∈ s.manifest
    · rw [if_pos hm]
      exact ih s
    · rw [if_neg hm]
      cases hf : env.fetch s.cwd pkg with
      | fail e => exact FrameSt.refl s
      | ok creates hasVendor =>
        dsimp only
        have hnd : vdir s.cwd <+: s.cwd ++ ["vendor", pkg] := vdir_prefix_child s.cwd pkg
        have h02 : FrameSt s (chdirAttempt
            { s with
              manifest := s.manifest ++ [pkg]
              fs := s.fs ++
                (if creates then
                  (s.cwd ++ ["vendor", pkg]) ::
                    (if hasVendor then [vdir (s.cwd ++ ["vendor", pkg])] else [])
                 else []) }
            (s.cwd ++ ["vendor", pkg])) := by
          refine ⟨⟨(if creates then
              (s.cwd ++ ["vendor", pkg]) ::
                (if hasVendor then [vdir (s.cwd ++ ["vendor", pkg])] else [])
            else []), by rw [chdirAttempt_fs], ?_⟩, ?_, ?_⟩
          · intro q hq
            split at hq
            · rcases List.mem_cons.1 hq with rfl | hq2
              · exact hnd
              · split at hq2
                · rcases List.mem_singleton.1 hq2 with rfl
                  exact hnd.trans (List.prefix_append _ _)
                · exact absurd hq2 (List.not_mem_nil q)
            · exact absurd hq (List.not_mem_nil q)
          · rw [chdirAttempt_manifest]
            exact List.prefix_append _ _
          · rcases chdirAttempt_cwd _ (s.cwd ++ ["vendor", pkg]) with h | h
            · rw [h]; exact Or.inr hnd
            · rw [h]; exact Or.inl rfl
        have hr : FrameSt s (rec (chdirAttempt _ _).cwd (chdirAttempt _ _)).st :=
          h02.trans (hrec _)
        cases ho : (rec (chdirAttempt _ _).cwd (chdirAttempt _ _)).outcome with
        | ok => exact hr.trans (ih _)
        | err e => exact hr
        | timeout => exact hr

lemma importsStep_frame (env : Env) (rec : GoDir → St → Res)
    (hrec : ∀ s : St, FrameSt s (rec s.cwd s).st) (isRoot : Bool) (s : St) :
    FrameSt s (importsStep env rec s.cwd isRoot s).st ∧
    ((importsStep env rec s.cwd isRoot s).outcome = .ok → s.cwd ∈ s.fs →
      (importsStep env rec s.cwd isRoot s).st.cwd = s.cwd) := by
  simp only [importsStep]
  cases hcr : (if (isRoot || !decide (vdir s.cwd ∈ s.fs)) = true then env.collect s.cwd
      else Except.ok []) with
  | error e =>
    refine ⟨FrameSt.refl s, ?_⟩
    intro h
    exact absurd h (by simp)
  | ok used =>
    dsimp only
    have hl : FrameSt s (loopF env rec (filteredImports used.dedup) s).st :=
      loopF_frame env rec hrec _ s
    cases ho : (loopF env rec (filteredImports used.dedup) s).outcome with
    | ok =>
      dsimp only
      obtain ⟨⟨adds, hfs, hadds⟩, hman, hcwd⟩ := hl
      constructor
      · refine ⟨⟨adds, by rw [chdirAttempt_fs, hfs], hadds⟩, ?_, ?_⟩
        · rw [chdirAttempt_manifest]; exact hman
        · rcases chdirAttempt_cwd (loopF env rec (filteredImports used.dedup) s).st s.cwd
            with h | h
          · rw [h]; exact Or.inl rfl
          · rw [h]; exact hcwd
      · intro _ hmem
        exact chdirAttempt_cwd_of_mem (by rw [hfs]; exact List.mem_append_left _ hmem)
    | err e =>
      refine ⟨hl, ?_⟩
      intro h
      exact absurd h (by simp)
    | timeout =>
      refine ⟨hl, ?_⟩
      intro h
      exact absurd h (by simp)

lemma fetchCall_not_mem_delay {p : GoPkg} {m : List GoPkg} {pkg : GoPkg} {c : Prop}
    [Decidable c] : Ev.fetchCall p m ∉ (if c then [Ev.delay pkg] else ([] : List Ev)) := by
  split <;> simp

lemma fetchCall_not_mem_crawl {p : GoPkg} {m : List GoPkg} {d : GoDir} {c : Prop}
    [Decidable c] : Ev.fetchCall p m ∉ (if c then [Ev.crawl d] else ([] : List Ev)) := by
  split <;> simp

lemma loopF_guard (env : Env) (rec : GoDir → St → Res)
    (hrecF : ∀ s : St, FrameSt s (rec s.cwd s).st)
    (hrecG : ∀ (s : St) (p : GoPkg) (m : List GoPkg),
      Ev.fetchCall p m ∈ (rec s.cwd s).tr → p ∉ m ∧ s.manifest <+: m) :
    ∀ (pkgs : List GoPkg) (s : St) (p : GoPkg) (m : List GoPkg),
      Ev.fetchCall p m ∈ (loopF env rec pkgs s).tr → p ∉ m ∧ s.manifest <+: m := by
  intro pkgs
  induction pkgs with
  | nil => intro s p m h; exact absurd h (by simp [loopF])
  | cons pkg rest ih =>
    intro s p m h
    rw [loopF] at h
    by_cases hm : pkg ∈ s.manifest
    · rw [if_pos hm] at h
      rcases List.mem_cons.1 h with h | h
      · exact absurd h (by simp)
      · exact ih s p m h
    · rw [if_neg hm] at h
      cases hf : env.fetch s.cwd pkg with
      | fail e =>
        rw [hf] at h
        dsimp only at h
        rcases List.mem_append.1 h with h | h
        · exact absurd h fetchCall_not_mem_delay
        · rcases List.mem_singleton.1 h with h
          obtain ⟨rfl, rfl⟩ : p = pkg ∧ m = s.manifest := by simpa using h
          exact ⟨hm, List.prefix_refl _⟩
      | ok creates hasVendor =>
        rw [hf] at h
        dsimp only at h
        set s2 : St := chdirAttempt
          { s with
            manifest := s.manifest ++ [pkg]
            fs := s.fs ++
              (if creates = true then
                (s.cwd ++ ["vendor", pkg]) ::
                  (if hasVendor = true then [vdir (s.cwd ++ ["vendor", pkg])] else [])
               else []) }
          (s.cwd ++ ["vendor", pkg]) with hs2
        have hman2 : s.manifest <+: s2.manifest := by
          rw [hs2, chdirAttempt_manifest]
          exact List.prefix_append _ _
        cases ho : (rec s2.cwd s2).outcome with
        | ok =>
          rw [ho] at h
          dsimp only at h
          rcases List.mem_append.1 h with h | h
          · exact absurd h fetchCall_not_mem_delay
          · rcases List.mem_cons.1 h with h | h
            · obtain ⟨rfl, rfl⟩ : p = pkg ∧ m = s.manifest := by simpa using h
              exact ⟨hm, List.prefix_refl _⟩
            · rcases List.mem_append.1 h with h | h
              · have hg := hrecG s2 p m h
                exact ⟨hg.1, hman2.trans hg.2⟩
              · have hg := ih _ p m h
                refine ⟨hg.1, ?_⟩
                exact (hman2.trans (hrecF s2).2.1).trans hg.2
        | err e =>
          rw [ho] at h
          dsimp only at h
          rcases List.mem_append.1 h with h | h
          · exact absurd h fetchCall_not_mem_delay
          · rcases List.mem_cons.1 h with h | h
            · obtain ⟨rfl, rfl⟩ : p = pkg ∧ m = s.manifest := by simpa using h
              exact ⟨hm, List.prefix_refl _⟩
            · have hg := hrecG s2 p m h
              exact ⟨hg.1, hman2.trans hg.2⟩
        | timeout =>
          rw [ho] at h
          dsimp only at h
          rcases List.mem_append.1 h with h | h
          · exact absurd h fetchCall_not_mem_delay
          · rcases List.mem_cons.1 h with h | h
            · obtain ⟨rfl, rfl⟩ : p = pkg ∧ m = s.manifest := by simpa using h
              exact ⟨hm, List.prefix_refl _⟩
            · have hg := hrecG s2 p m h
              exact ⟨hg.1, hman2.trans hg.2⟩

lemma importsStep_guard (env : Env) (rec : GoDir → St → Res)
    (hrecF : ∀ s : St, FrameSt s (rec s.cwd s).st)
    (hrecG : ∀ (s : St) (p : GoPkg) (m : List GoPkg),
      Ev.fetchCall p m ∈ (rec s.cwd s).tr → p ∉ m ∧ s.manifest <+: m)
    (dir : GoDir) (isRoot : Bool) (s : St) (p : GoPkg) (m : List GoPkg) :
    Ev.fetchCall p m ∈ (importsStep env rec dir isRoot s).tr → p ∉ m ∧ s.manifest <+: m := by
  intro h
  rw [importsStep] at h
  cases hcr : (if (isRoot || !decide (vdir s.cwd ∈ s.fs)) = true then env.collect dir
      else Except.ok []) with
  | error e =>
    rw [hcr] at h
    dsimp only at h
    exact absurd h fetchCall_not_mem_crawl
  | ok used =>
    rw [hcr] at h
    dsimp only at h
    cases ho : (loopF env rec (filteredImports used.dedup) s).outcome with
    | ok =>
      rw [ho] at h
      dsimp only at h
      rcases List.mem_append.1 h with h | h
      · exact absurd h fetchCall_not_mem_crawl
      · exact loopF_guard env rec hrecF hrecG _ s p m h
    | err e =>
      rw [ho] at h
      dsimp only at h
      rcases List.mem_append.1 h with h | h
      · exact absurd h fetchCall_not_mem_crawl
      · exact loopF_guard env rec hrecF hrecG _ s p m h
    | timeout =>
      rw [ho] at h
      dsimp only at h
      rcases List.mem_append.1 h with h | h
      · exact absurd h fetchCall_not_mem_crawl
      · exact loopF_guard env rec hrecF hrecG _ s p m h

lemma importsF_frame (env : Env) :
    ∀ (n : Nat) (b : Bool) (s : St),
      FrameSt s (importsF env n s.cwd b s).st ∧
      ((importsF env n s.cwd b s).outcome = .ok → s.cwd ∈ s.fs →
        (importsF env n s.cwd b s).st.cwd = s.cwd) := by
  intro n
  induction n with
  | zero =>
    intro b s
    exact ⟨FrameSt.refl s, fun h => absurd h (by simp [importsF])⟩
  | succ n ih =>
    intro b s
    exact importsStep_frame env _ (fun s' => (ih false s').1) b s

/-! ## One-step reduction equations -/

lemma loopF_cons_mem (env : Env) (rec : GoDir → St → Res) (pkg : GoPkg)
    (rest : List GoPkg) (s : St) (hm : pkg ∈ s.manifest) :
    loopF env rec (pkg :: rest) s =
      ⟨(loopF env rec rest s).outcome, (loopF env rec rest s).st,
        Ev.notice pkg :: (loopF env rec rest s).tr⟩ := by
  rw [loopF, if_pos hm]

lemma loopF_cons_fetch (env : Env) (rec : GoDir → St → Res) (pkg : GoPkg)
    (rest : List GoPkg) (s : St) (hm : pkg ∉ s.manifest)
    (hf : env.fetch s.cwd pkg = .ok true false) :
    loopF env rec (pkg :: rest) s =
      (let s2 := chdirAttempt
        { s with manifest := s.manifest ++ [pkg], fs := s.fs ++ [s.cwd ++ ["vendor", pkg]] }
        (s.cwd ++ ["vendor", pkg])
       let r := rec s2.cwd s2
       let tr1 : List Ev :=
         if "github.com".data.isPrefixOf pkg.data then [Ev.delay pkg] else []
       match r.outcome with
       | .ok =>
         ⟨(loopF env rec rest r.st).outcome, (loopF env rec rest r.st).st,
           tr1 ++ Ev.fetchCall pkg s.manifest :: (r.tr ++ (loopF env rec rest r.st).tr)⟩
       | o => ⟨o, r.st, tr1 ++ Ev.fetchCall pkg s.manifest :: r.tr⟩) := by
  rw [loopF, if_neg hm, hf]
  rfl

lemma importsStep_crawl_eq (env : Env) (rec : GoDir → St → Res) (dir : GoDir)
    (isRoot : Bool) (s : St) (used : List GoPkg)
    (hdo : (isRoot || !decide (vdir s.cwd ∈ s.fs)) = true)
    (hc : env.collect dir = .ok used) :
    importsStep env rec dir isRoot s =
      (let r := loopF env rec (filteredImports used.dedup) s
       match r.outcome with
       | .ok => ⟨.ok, chdirAttempt r.st dir, Ev.crawl dir :: r.tr⟩
       | o => ⟨o, r.st, Ev.crawl dir :: r.tr⟩) := by
  rw [importsStep, hdo]
  dsimp only
  rw [if_pos rfl, if_pos rfl, hc]
  dsimp only
  cases (loopF env rec (filteredImports used.dedup) s).outcome <;> rfl

lemma importsStep_crawl_error (env : Env) (rec : GoDir → St → Res) (dir : GoDir)
    (isRoot : Bool) (s : St) (e : String)
    (hdo : (isRoot || !decide (vdir s.cwd ∈ s.fs)) = true)
    (hc : env.collect dir = .error e) :
    importsStep env rec dir isRoot s = ⟨.err e, s, [Ev.crawl dir]⟩ := by
  rw [importsStep, hdo]
  dsimp only
  rw [if_pos rfl, if_pos rfl, hc]

lemma importsStep_skip (env : Env) (rec : GoDir → St → Res) (dir : GoDir) (s : St)
    (hv : vdir s.cwd ∈ s.fs) :
    importsStep env rec dir false s = ⟨.ok, chdirAttempt s dir, []⟩ := by
  have hdo : (false || !decide (vdir s.cwd ∈ s.fs)) = false := by
    simp [hv]
  rw [importsStep, hdo]
  dsimp only
  rw [if_neg (by simp), if_neg (by simp)]
  rfl

lemma loopF_abort (env : Env) (rec : GoDir → St → Res) (p : GoPkg) (e : String)
    (henv : ∀ c, env.fetch c p = .fail e)
    (hrec : ∀ (d : GoDir) (s : St), (∃ m, Ev.fetchCall p m ∈ (rec d s).tr) →
      (rec d s).outcome = .err e ∧ ∃ pre m2, (rec d s).tr = pre ++ [Ev.fetchCall p m2]) :
    ∀ (pkgs : List GoPkg) (s : St), (∃ m, Ev.fetchCall p m ∈ (loopF env rec pkgs s).tr) →
      (loopF env rec pkgs s).outcome = .err e ∧
      ∃ pre m2, (loopF env rec pkgs s).tr = pre ++ [Ev.fetchCall p m2] := by
  intro pkgs
  induction pkgs with
  | nil =>
    intro s h
    obtain ⟨m', hmem⟩ := h
    exact absurd hmem (by simp [loopF])
  | cons pkg rest ih =>
    intro s h
    obtain ⟨m', hmem⟩ := h
    rw [loopF] at hmem ⊢
    by_cases hm : pkg ∈ s.manifest
    · rw [if_pos hm] at hmem ⊢
      dsimp only at hmem ⊢
      rcases List.mem_cons.1 hmem with hmem | hmem
      · exact absurd hmem (by simp)
      · obtain ⟨ho, pre, m2, hsh⟩ := ih s ⟨m', hmem⟩
        refine ⟨ho, Ev.notice pkg :: pre, m2, ?_⟩
        rw [List.cons_append, hsh]
    · rw [if_neg hm] at hmem ⊢
      by_cases hpp : pkg = p
      · subst hpp
        rw [henv s.cwd] at hmem ⊢
        dsimp only at hmem ⊢
        exact ⟨rfl, _, s.manifest, rfl⟩
      · cases hf : env.fetch s.cwd pkg with
        | fail e2 =>
          rw [hf] at hmem
          dsimp only at hmem ⊢
          rcases List.mem_append.1 hmem with hmem | hmem
          · exact absurd hmem fetchCall_not_mem_delay
          · rcases List.mem_singleton.1 hmem with hmem
            obtain ⟨h1, -⟩ : p = pkg ∧ m' = s.manifest := by simpa using hmem
            exact absurd h1.symm hpp
        | ok creates hasVendor =>
          rw [hf] at hmem
          dsimp only at hmem ⊢
          set s2 : St := chdirAttempt
            { s with
              manifest := s.manifest ++ [pkg]
              fs := s.fs ++
                (if creates = true then
                  (s.cwd ++ ["vendor", pkg]) ::
                    (if hasVendor = true then [vdir (s.cwd ++ ["vendor", pkg])] else [])
                 else []) }
            (s.cwd ++ ["vendor", pkg]) with hs2
          cases ho : (rec s2.cwd s2).outcome with
          | ok =>
            rw [ho] at hmem
            dsimp only at hmem ⊢
            rcases List.mem_append.1 hmem with hmem | hmem
            · exact absurd hmem fetchCall_not_mem_delay
            · rcases List.mem_cons.1 hmem with hmem | hmem
              · obtain ⟨h1, -⟩ : p = pkg ∧ m' = s.manifest := by simpa using hmem
                exact absurd h1.symm hpp
              · rcases List.mem_append.1 hmem with hmem | hmem
                · have hcontr := (hrec s2.cwd s2 ⟨m', hmem⟩).1
                  rw [ho] at hcontr
                  exact absurd hcontr (by simp)
                · obtain ⟨ho2, pre, m2, hsh⟩ := ih _ ⟨m', hmem⟩
                  refine ⟨ho2,
                    (if "github.com".data.isPrefixOf pkg.data = true then [Ev.delay pkg]
                      else []) ++
                      Ev.fetchCall pkg s.manifest :: ((rec s2.cwd s2).tr ++ pre), m2, ?_⟩
                  rw [hsh]
                  simp [List.append_assoc]
          | err e2 =>
            rw [ho] at hmem
            dsimp only at hmem ⊢
            rcases List.mem_append.1 hmem with hmem | hmem
            · exact absurd hmem fetchCall_not_mem_delay
            · rcases List.mem_cons.1 hmem with hmem | hmem
              · obtain ⟨h1, -⟩ : p = pkg ∧ m' = s.manifest := by simpa using hmem
                exact absurd h1.symm hpp
              · obtain ⟨hoe, pre, m2, hsh⟩ := hrec s2.cwd s2 ⟨m', hmem⟩
                rw [ho] at hoe
                refine ⟨hoe,
                  (if "github.com".data.isPrefixOf pkg.data = true then [Ev.delay pkg]
                    else []) ++
                    Ev.fetchCall pkg s.manifest :: pre, m2, ?_⟩
                rw [hsh]
                simp [List.append_assoc]
          | timeout =>
            rw [ho] at hmem
            dsimp only at hmem ⊢
            rcases List.mem_append.1 hmem with hmem | hmem
            · exact absurd hmem fetchCall_not_mem_delay
            · rcases List.mem_cons.1 hmem with hmem | hmem
              · obtain ⟨h1, -⟩ : p = pkg ∧ m' = s.manifest := by simpa using hmem
                exact absurd h1.symm hpp
              · have hcontr := (hrec s2.cwd s2 ⟨m', hmem⟩).1
                rw [ho] at hcontr
                exact absurd hcontr (by simp)

lemma importsStep_abort (env : Env) (rec : GoDir → St → Res) (p : GoPkg) (e : String)
    (henv : ∀ c, env.fetch c p = .fail e)
    (hrec : ∀ (d : GoDir) (s : St), (∃ m, Ev.fetchCall p m ∈ (rec d s).tr) →
      (rec d s).outcome = .err e ∧ ∃ pre m2, (rec d s).tr = pre ++ [Ev.fetchCall p m2])
    (dir : GoDir) (isRoot : Bool) (s : St) :
    (∃ m, Ev.fetchCall p m ∈ (importsStep env rec dir isRoot s).tr) →
      (importsStep env rec dir isRoot s).outcome = .err e ∧
      ∃ pre m2, (importsStep env rec dir isRoot s).tr = pre ++ [Ev.fetchCall p m2] := by
  intro h
  obtain ⟨m', hmem⟩ := h
  rw [importsStep] at hmem ⊢
  cases hcr : (if (isRoot || !decide (vdir s.cwd ∈ s.fs)) = true then env.collect dir
      else Except.ok []) with
  | error e2 =>
    rw [hcr] at hmem
    dsimp only at hmem ⊢
    exact absurd hmem fetchCall_not_mem_crawl
  | ok used =>
    rw [hcr] at hmem
    dsimp only at hmem ⊢
    cases ho : (loopF env rec (filteredImports used.dedup) s).outcome with
    | ok =>
      rw [ho] at hmem
      dsimp only at hmem ⊢
      rcases List.mem_append.1 hmem with hmem | hmem
      · exact absurd hmem fetchCall_not_mem_crawl
      · have hcontr := (loopF_abort env rec p e henv hrec _ s ⟨m', hmem⟩).1
        rw [ho] at hcontr
        exact absurd hcontr (by simp)
    | err e2 =>
      rw [ho] at hmem
      dsimp only at hmem ⊢
      rcases List.mem_append.1 hmem with hmem | hmem
      · exact absurd hmem fetchCall_not_mem_crawl
      · obtain ⟨hoe, pre, m2, hsh⟩ := loopF_abort env rec p e henv hrec _ s ⟨m', hmem⟩
        rw [ho] at hoe
        refine ⟨hoe,
          (if (isRoot || !decide (vdir s.cwd ∈ s.fs)) = true then [Ev.crawl dir]
            else []) ++ pre, m2, ?_⟩
        rw [hsh]
        simp [List.append_assoc]
    | timeout =>
      rw [ho] at hmem
      dsimp only at hmem ⊢
      rcases List.mem_append.1 hmem with hmem | hmem
      · exact absurd hmem fetchCall_not_mem_crawl
      · have hcontr := (loopF_abort env rec p e henv hrec _ s ⟨m', hmem⟩).1
        rw [ho] at hcontr
        exact absurd hcontr (by simp)

lemma importsF_abort (env : Env) (p : GoPkg) (e : String)
    (henv : ∀ c, env.fetch c p = .fail e) :
    ∀ (n : Nat) (dir : GoDir) (isRoot : Bool) (s : St),
      (∃ m, Ev.fetchCall p m ∈ (importsF env n dir isRoot s).tr) →
      (importsF env n dir isRoot s).outcome = .err e ∧
      ∃ pre m2, (importsF env n dir isRoot s).tr = pre ++ [Ev.fetchCall p m2] := by
  intro n
  induction n with
  | zero =>
    intro dir isRoot s h
    obtain ⟨m', hmem⟩ := h
    exact absurd hmem (by simp [importsF])
  | succ n ih =>
    intro dir isRoot s h
    exact importsStep_abort env _ p e henv (fun d s' h' => ih d false s' h') dir isRoot s h

lemma importsF_guard (env : Env) :
    ∀ (n : Nat) (dir : GoDir) (isRoot : Bool) (s : St) (p : GoPkg) (m : List GoPkg),
      Ev.fetchCall p m ∈ (importsF env n dir isRoot s).tr → p ∉ m ∧ s.manifest <+: m := by
  intro n
  induction n with
  | zero => intro dir isRoot s p m h; exact absurd h (by simp [importsF])
  | succ n ih =>
    intro dir isRoot s p m h
    exact importsStep_guard env _ (fun s' => (importsF_frame env n false s').1)
      (fun s' p' m' h' => ih s'.cwd false s' p' m' h') dir isRoot s p m h

/-! ## The transitive remote-import closure (root-level rebuild)

For a coherent environment — the root directory crawls to `R`, the tree of a
fetched package `q` crawls to `I q` wherever it is vendored, and every fetch
succeeds, materializes the directory and ships no vendor subdirectory — a
completed root run produces exactly the transitive remote-import closure. -/

/-- The transitive remote-import closure of a source tree: `R` is the
root's import set and `I q` the import set of the fetched package `q`; a
package is in the closure iff it is a remote import of the root, or a
remote import of a package already in the closure. -/
inductive Reach (R : List GoPkg) (I : GoPkg → List GoPkg) : GoPkg → Prop
  | root {p : GoPkg} : p ∈ R → packageIsRemoteDependency p = true → Reach R I p
  | step {q p : GoPkg} : Reach R I q → p ∈ I q → packageIsRemoteDependency p = true →
      Reach R I p

lemma vendor_not_remote : packageIsRemoteDependency "vendor" = false := by decide

lemma getLast?_append_pair (l : List String) (a b : String) :
    (l ++ [a, b]).getLast? = some b := by
  simp [List.getLast?_append]

lemma getLast?_vdir (c : GoDir) : (vdir c).getLast? = some "vendor" := by
  simp [vdir, List.getLast?_append]

/-- State invariant of a coherent closure run rooted at `c0`: the working
directory is the root or lies below the root's vendor storage; no directory
below the root's vendor storage is itself named `vendor`; every manifest
entry is in the closure. -/
def StInv (c0 : GoDir) (R : List GoPkg) (I : GoPkg → List GoPkg) (s : St) : Prop :=
  (s.cwd = c0 ∨ vdir c0 <+: s.cwd) ∧
  (∀ p ∈ s.fs, vdir c0 <+: p → p.getLast? ≠ some "vendor") ∧
  (∀ q ∈ s.manifest, Reach R I q)

/-- Call descriptor: the `dir` argument is the current working directory and
the call is either the root call or a recursive call into a vendored closure
package. -/
def HDok (c0 : GoDir) (R : List GoPkg) (I : GoPkg → List GoPkg) (d : GoDir) (b : Bool)
    (s : St) : Prop :=
  d = s.cwd ∧
  ((b = true ∧ d = c0) ∨
   (b = false ∧ vdir c0 <+: d ∧ ∃ x q, d = x ++ ["vendor", q] ∧ Reach R I q))

/-- Guarantees of a coherent call: the invariant holds at exit, on normal
return every remote identifier of the crawl of `d` is in the final manifest,
and so are, recursively, the remote imports of every package the call added
to the manifest. -/
def CallConcl (env : Env) (c0 : GoDir) (R : List GoPkg) (I : GoPkg → List GoPkg)
    (s : St) (d : GoDir) (r : Res) : Prop :=
  StInv c0 R I r.st ∧
  (r.outcome = .ok → ∀ used, env.collect d = .ok used →
    ∀ p ∈ used, packageIsRemoteDependency p = true → p ∈ r.st.manifest) ∧
  (r.outcome = .ok → ∀ q ∈ r.st.manifest, q ∉ s.manifest →
    ∀ p ∈ I q, packageIsRemoteDependency p = true → p ∈ r.st.manifest)

/-- Guarantees of the fetch loop over a worklist of closure members. -/
def LoopConcl (c0 : GoDir) (R : List GoPkg) (I : GoPkg → List GoPkg)
    (pkgs : List GoPkg) (s : St) (r : Res) : Prop :=
  StInv c0 R I r.st ∧
  (r.outcome = .ok → ∀ p ∈ pkgs, p ∈ r.st.manifest) ∧
  (r.outcome = .ok → ∀ q ∈ r.st.manifest, q ∉ s.manifest →
    ∀ p ∈ I q, packageIsRemoteDependency p = true → p ∈ r.st.manifest)

lemma loopClosure (env : Env) (c0 : GoDir) (R : List GoPkg) (I : GoPkg → List GoPkg)
    (hpkg : ∀ x q, env.collect (x ++ ["vendor", q]) = .ok (I q))
    (hfetch : ∀ c q, env.fetch c q = .ok true false)
    (n : Nat)
    (hcall : ∀ (d : GoDir) (s : St), StInv c0 R I s → HDok c0 R I d false s →
      CallConcl env c0 R I s d (importsF env n d false s)) :
    ∀ (pkgs : List GoPkg) (s : St), StInv c0 R I s →
      (∀ p ∈ pkgs, packageIsRemoteDependency p = true ∧ Reach R I p) →
      LoopConcl c0 R I pkgs s
        (loopF env (fun d s' => importsF env n d false s') pkgs s) := by
  have hrecF : ∀ s' : St, FrameSt s' (importsF env n s'.cwd false s').st :=
    fun s' => (importsF_frame env n false s').1
  intro pkgs
  induction pkgs with
  | nil =>
    intro s hInv hpkgs
    refine ⟨hInv, ?_, ?_⟩
    · intro _ p hp
      exact absurd hp (List.not_mem_nil p)
    · intro _ q hq hnq
      exact absurd hq hnq
  | cons pkg rest ih =>
    intro s hInv hpkgs
    have hrem : packageIsRemoteDependency pkg = true := (hpkgs pkg (List.mem_cons_self _ _)).1
    have hreach : Reach R I pkg := (hpkgs pkg (List.mem_cons_self _ _)).2
    have hrest : ∀ p ∈ rest, packageIsRemoteDependency p = true ∧ Reach R I p :=
      fun p hp => hpkgs p (List.mem_cons_of_mem _ hp)
    by_cases hm : pkg ∈ s.manifest
    · rw [loopF_cons_mem _ _ _ _ _ hm]
      obtain ⟨ih1, ih2, ih3⟩ := ih s hInv hrest
      refine ⟨ih1, ?_, ?_⟩
      · intro ho p hp
        rcases List.mem_cons.1 hp with rfl | hp
        · have hfr := loopF_frame env (fun d s' => importsF env n d false s') hrecF rest s
          exact hfr.2.1.subset hm
        · exact ih2 ho p hp
      · intro ho q hq hnq p hp hrp
        exact ih3 ho q hq hnq p hp hrp
    · rw [loopF_cons_fetch _ _ _ _ _ hm (hfetch s.cwd pkg)]
      dsimp only
      set s2 : St := chdirAttempt
        { s with
          manifest := s.manifest ++ [pkg]
          fs := s.fs ++ [s.cwd ++ ["vendor", pkg]] }
        (s.cwd ++ ["vendor", pkg]) with hs2def
      have hmem2 : s.cwd ++ ["vendor", pkg] ∈
          ({ s with
             manifest := s.manifest ++ [pkg]
             fs := s.fs ++ [s.cwd ++ ["vendor", pkg]] } : St).fs :=
        List.mem_append_right _ (List.mem_singleton.2 rfl)
      have hs2cwd : s2.cwd = s.cwd ++ ["vendor", pkg] := by
        rw [hs2def]; exact chdirAttempt_cwd_of_mem hmem2
      have hs2fs : s2.fs = s.fs ++ [s.cwd ++ ["vendor", pkg]] := by
        rw [hs2def, chdirAttempt_fs]
      have hs2man : s2.manifest = s.manifest ++ [pkg] := by
        rw [hs2def, chdirAttempt_manifest]
      have hnewpref : vdir c0 <+: s.cwd ++ ["vendor", pkg] := by
        rcases hInv.1 with h | h
        · rw [← h]; exact vdir_prefix_child s.cwd pkg
        · exact h.trans (List.prefix_append s.cwd ["vendor", pkg])
      have hInv2 : StInv c0 R I s2 := by
        refine ⟨?_, ?_, ?_⟩
        · rw [hs2cwd]; exact Or.inr hnewpref
        · intro p hp hpref
          rw [hs2fs] at hp
          rcases List.mem_append.1 hp with hp | hp
          · exact hInv.2.1 p hp hpref
          · rcases List.mem_singleton.1 hp with rfl
            rw [show s.cwd ++ ["vendor", pkg] = s.cwd ++ ["vendor", pkg] from rfl,
              getLast?_append_pair]
            intro hcontr
            have : pkg = "vendor" := by injection hcontr
            rw [this] at hrem
            exact absurd hrem (by decide)
        · intro q hq
          rw [hs2man] at hq
          rcases List.mem_append.1 hq with hq | hq
          · exact hInv.2.2 q hq
          · rcases List.mem_singleton.1 hq with rfl
            exact hreach
      have hHD2 : HDok c0 R I s2.cwd false s2 :=
        ⟨rfl, Or.inr ⟨rfl, by rw [hs2cwd]; exact hnewpref,
          ⟨s.cwd, pkg, hs2cwd, hreach⟩⟩⟩
      obtain ⟨hC1, hC2, hC3⟩ := hcall s2.cwd s2 hInv2 hHD2
      have hfrChild : FrameSt s2 (importsF env n s2.cwd false s2).st :=
        (importsF_frame env n false s2).1
      cases ho : (importsF env n s2.cwd false s2).outcome with
      | ok =>
        dsimp only
        obtain ⟨ihInv, ihL4, ihL5⟩ := ih (importsF env n s2.cwd false s2).st hC1 hrest
        have hfr2 : FrameSt (importsF env n s2.cwd false s2).st
            (loopF env (fun d s' => importsF env n d false s') rest
              (importsF env n s2.cwd false s2).st).st :=
          loopF_frame env (fun d s' => importsF env n d false s') hrecF rest _
        refine ⟨ihInv, ?_, ?_⟩
        · intro ho2 p hp
          rcases List.mem_cons.1 hp with rfl | hp
          · have hpkg_s2 : p ∈ s2.manifest := by
              rw [hs2man]; exact List.mem_append_right _ (List.mem_singleton.2 rfl)
            exact hfr2.2.1.subset (hfrChild.2.1.subset hpkg_s2)
          · exact ihL4 ho2 p hp
        · intro ho2 q hq hnq p hp hrp
          by_cases hq1 : q ∈ (importsF env n s2.cwd false s2).st.manifest
          · by_cases hq0 : q ∈ s2.manifest
            · have hqpkg : q = pkg := by
                rw [hs2man] at hq0
                rcases List.mem_append.1 hq0 with h | h
                · exact absurd h hnq
                · exact List.mem_singleton.1 h
              subst hqpkg
              have hchild := hC2 ho (I q) (by rw [hs2cwd]; exact hpkg s.cwd q) p hp hrp
              exact hfr2.2.1.subset hchild
            · have hchild := hC3 ho q hq1 hq0 p hp hrp
              exact hfr2.2.1.subset hchild
          · exact ihL5 ho2 q hq hq1 p hp hrp
      | err e =>
        dsimp only
        refine ⟨hC1, ?_, ?_⟩
        · intro ho2
          exact absurd ho2 (by simp)
        · intro ho2
          exact absurd ho2 (by simp)
      | timeout =>
        dsimp only
        refine ⟨hC1, ?_, ?_⟩
        · intro ho2
          exact absurd ho2 (by simp)
        · intro ho2
          exact absurd ho2 (by simp)

lemma importsFClosure (env : Env) (c0 : GoDir) (R : List GoPkg) (I : GoPkg → List GoPkg)
    (hroot : env.collect c0 = .ok R)
    (hpkg : ∀ x q, env.collect (x ++ ["vendor", q]) = .ok (I q))
    (hfetch : ∀ c q, env.fetch c q = .ok true false) :
    ∀ (n : Nat) (d : GoDir) (b : Bool) (s : St), StInv c0 R I s → HDok c0 R I d b s →
      CallConcl env c0 R I s d (importsF env n d b s) := by
  intro n
  induction n with
  | zero =>
    intro d b s hInv hHD
    refine ⟨hInv, ?_, ?_⟩
    · intro ho
      exact absurd ho (by simp [importsF])
    · intro ho
      exact absurd ho (by simp [importsF])
  | succ n ih =>
    intro d b s hInv hHD
    obtain ⟨hd, hcase⟩ := hHD
    have key : ∀ used : List GoPkg, env.collect d = .ok used →
        (∀ p ∈ used, packageIsRemoteDependency p = true → Reach R I p) →
        CallConcl env c0 R I s d
          (let r := loopF env (fun d s' => importsF env n d false s')
              (filteredImports used.dedup) s
           match r.outcome with
           | .ok => ⟨.ok, chdirAttempt r.st d, Ev.crawl d :: r.tr⟩
           | o => ⟨o, r.st, Ev.crawl d :: r.tr⟩) := by
      intro used hcd hused
      have hwork : ∀ p ∈ filteredImports used.dedup,
          packageIsRemoteDependency p = true ∧ Reach R I p := by
        intro p hp
        have h2 := List.mem_filter.1 hp
        exact ⟨h2.2, hused p (List.mem_dedup.1 h2.1) h2.2⟩
      obtain ⟨hLInv, hL4, hL5⟩ := loopClosure env c0 R I hpkg hfetch n
        (fun d s hi hh => ih d false s hi hh)
        (filteredImports used.dedup) s hInv hwork
      dsimp only
      set lr := loopF env (fun d s' => importsF env n d false s')
        (filteredImports used.dedup) s with hlrdef
      cases ho : lr.outcome with
      | ok =>
        refine ⟨⟨?_, ?_, ?_⟩, ?_, ?_⟩
        · rcases chdirAttempt_cwd lr.st d with h | h
          · rw [h, hd]
            exact hInv.1
          · rw [h]
            exact hLInv.1
        · intro p hp hpref
          rw [chdirAttempt_fs] at hp
          exact hLInv.2.1 p hp hpref
        · intro q hq
          rw [chdirAttempt_manifest] at hq
          exact hLInv.2.2 q hq
        · intro _ used2 hcd2 p hp hrp
          obtain rfl : used = used2 := Except.ok.inj (hcd.symm.trans hcd2)
          rw [chdirAttempt_manifest]
          exact hL4 ho p (List.mem_filter.2 ⟨List.mem_dedup.2 hp, hrp⟩)
        · intro _ q hq hnq p hp hrp
          rw [chdirAttempt_manifest] at hq ⊢
          exact hL5 ho q hq hnq p hp hrp
      | err e =>
        exact ⟨hLInv, fun ho2 => absurd ho2 (by simp), fun ho2 => absurd ho2 (by simp)⟩
      | timeout =>
        exact ⟨hLInv, fun ho2 => absurd ho2 (by simp), fun ho2 => absurd ho2 (by simp)⟩
    rcases hcase with ⟨hb, hdc0⟩ | ⟨hb, hpref, x, q, hdxq, hq⟩
    · subst hb
      rw [show importsF env (n + 1) d true s =
        importsStep env (fun d s' => importsF env n d false s') d true s from rfl]
      rw [importsStep_crawl_eq env (fun d s' => importsF env n d false s') d true s R
        (by simp) (by rw [hdc0]; exact hroot)]
      exact key R (by rw [hdc0]; exact hroot) (fun p hp hrp => Reach.root hp hrp)
    · subst hb
      have hnv : vdir s.cwd ∉ s.fs := by
        intro hmem
        refine hInv.2.1 (vdir s.cwd) hmem ?_ (getLast?_vdir s.cwd)
        rw [← hd]
        exact hpref.trans (List.prefix_append d ["vendor"])
      rw [show importsF env (n + 1) d false s =
        importsStep env (fun d s' => importsF env n d false s') d false s from rfl]
      rw [importsStep_crawl_eq env (fun d s' => importsF env n d false s') d false s (I q)
        (by simp [hnv]) (by rw [hdxq]; exact hpkg x q)]
      exact key (I q) (by rw [hdxq]; exact hpkg x q) (fun p hp hrp => Reach.step hq hp hrp)

lemma eraseVendor_not_prefixed {c : GoDir} {fs : List GoDir} :
    ∀ p ∈ eraseVendor c fs, ¬ (vdir c <+: p) := by
  intro p hp
  have h2 := (List.mem_filter.1 hp).2
  rw [Bool.not_eq_true'] at h2
  intro hcontr
  exact absurd (List.isPrefixOf_iff_prefix.2 hcontr) (by simp [h2])

lemma not_vdir_prefix_self (c : GoDir) : ¬ (vdir c <+: c) := by
  intro h
  have := h.length_le
  simp [vdir] at this

lemma mem_eraseVendor {c : GoDir} {fs : List GoDir} {p : GoDir} (hp : p ∈ fs)
    (hnp : ¬ (vdir c <+: p)) : p ∈ eraseVendor c fs := by
  refine List.mem_filter.2 ⟨hp, ?_⟩
  rw [Bool.not_eq_true', Bool.eq_false_iff]
  intro hx
  exact hnp (List.isPrefixOf_iff_prefix.1 hx)

/-- C7.  A root-level run (`cmdImports.Run`) first deletes the vendor
storage entirely and reloads an empty manifest, and then — for every initial
vendor-storage state and stale manifest — a completed run leaves in the
manifest exactly the transitive remote-import closure of the current source
tree.  The environment coherence hypotheses say: the root crawls to `R`,
a package `q` vendored anywhere crawls to `I q`, and every fetch succeeds,
materializes the vendored directory and ships no vendor subdirectory. -/
theorem c7_root_rebuild_closure (env : Env) (R : List GoPkg)
    (I : GoPkg → List GoPkg) (fuel : Nat) (s : St)
    (hroot : env.collect s.cwd = .ok R)
    (hpkg : ∀ x q, env.collect (x ++ ["vendor", q]) = .ok (I q))
    (hfetch : ∀ c q, env.fetch c q = .ok true false)
    (hok : (cmdImportsF env fuel s).outcome = .ok) :
    ∀ p, p ∈ (cmdImportsF env fuel s).st.manifest ↔ Reach R I p := by
  rw [show cmdImportsF env fuel s = importsF env fuel s.cwd true
    { s with fs := eraseVendor s.cwd s.fs, manifest := [] } from rfl] at hok ⊢
  have hInv1 : StInv s.cwd R I { s with fs := eraseVendor s.cwd s.fs, manifest := [] } := by
    refine ⟨Or.inl rfl, ?_, ?_⟩
    · intro p hp hpref
      exact absurd hpref (eraseVendor_not_prefixed p hp)
    · intro q hq
      exact absurd hq (List.not_mem_nil q)
  have hHD1 : HDok s.cwd R I s.cwd true
      { s with fs := eraseVendor s.cwd s.fs, manifest := [] } :=
    ⟨rfl, Or.inl ⟨rfl, rfl⟩⟩
  obtain ⟨hInvF, hC2, hC3⟩ := importsFClosure env s.cwd R I hroot hpkg hfetch fuel
    s.cwd true _ hInv1 hHD1
  intro p
  constructor
  · intro hp
    exact hInvF.2.2 p hp
  · intro hre
    induction hre with
    | root hp hrp => exact hC2 hok R hroot _ hp hrp
    | step hq hp hrp ihq => exact hC3 hok _ ihq (List.not_mem_nil _) _ hp hrp

/-- C9.  Determinism/idempotence of the root-level run: starting from any
state whose working directory exists, a completed `cmdImports` run followed
by a second run over the resulting state reproduces the first run exactly —
in particular the final manifests of the two runs are identical.  This holds
because the second run's destructive reset (vendor removal plus manifest
reload) cancels everything the first run changed: the first run only adds
directories below the root's vendor storage and, having completed, restores
the working directory. -/
theorem c9_idempotent (env : Env) (fuel : Nat) (s : St)
    (hcwd : s.cwd ∈ s.fs)
    (hok : (cmdImportsF env fuel s).outcome = .ok) :
    cmdImportsF env fuel ((cmdImportsF env fuel s).st) = cmdImportsF env fuel s := by
  have hframe := importsF_frame env fuel true
    { s with fs := eraseVendor s.cwd s.fs, manifest := [] }
  dsimp only at hframe
  obtain ⟨⟨adds, hfs, hadds⟩, -, -⟩ := hframe.1
  have hcwdF : (importsF env fuel s.cwd true
      { s with fs := eraseVendor s.cwd s.fs, manifest := [] }).st.cwd = s.cwd :=
    hframe.2 hok (mem_eraseVendor hcwd (not_vdir_prefix_self s.cwd))
  have herase : eraseVendor s.cwd (importsF env fuel s.cwd true
      { s with fs := eraseVendor s.cwd s.fs, manifest := [] }).st.fs
      = eraseVendor s.cwd s.fs := by
    rw [hfs]
    unfold eraseVendor
    rw [List.filter_append]
    have h1 : List.filter (fun p => !((vdir s.cwd).isPrefixOf p)) adds = [] :=
      List.filter_eq_nil_iff.2 (fun q hq => by
        simp [List.isPrefixOf_iff_prefix.2 (hadds q hq)])
    rw [h1, List.append_nil]
    simp [List.filter_filter]
  calc cmdImportsF env fuel ((cmdImportsF env fuel s).st)
      = importsF env fuel (cmdImportsF env fuel s).st.cwd true
        { (cmdImportsF env fuel s).st with
          fs := eraseVendor (cmdImportsF env fuel s).st.cwd (cmdImportsF env fuel s).st.fs
          manifest := [] } := rfl
    _ = cmdImportsF env fuel s := by
        rw [show (cmdImportsF env fuel s).st.cwd = s.cwd from hcwdF]
        rw [show eraseVendor s.cwd (cmdImportsF env fuel s).st.fs
          = eraseVendor s.cwd s.fs from herase]
        show importsF env fuel s.cwd true
          { cwd := (cmdImportsF env fuel s).st.cwd
            fs := eraseVendor s.cwd s.fs
            manifest := [] } = cmdImportsF env fuel s
        rw [show (cmdImportsF env fuel s).st.cwd = s.cwd from hcwdF]
        rfl

/-! ## Concrete environments for evaluations -/

/-- A tree whose root imports one remote package and whose vendored
subtree fails to crawl. -/
def envC1 : Env where
  collect d := if d = ["p"] then .ok ["github.com/a/a"] else .error "walk failure"
  fetch _ _ := .ok true false

/-- A tree with a single remote import; fetch is never expected to run. -/
def envC2 : Env where
  collect _ := .ok ["github.com/a/b"]
  fetch _ _ := .fail "unreachable"

/-- A tree with two remote imports whose fetches always fail. -/
def envC4 : Env where
  collect _ := .ok ["github.com/a/a", "github.com/b/b"]
  fetch _ _ := .fail "network unreachable"

/-- An environment whose crawl always fails, to show it is not invoked. -/
def envC6 : Env where
  collect _ := .error "crawl must not run"
  fetch _ _ := .fail "fetch must not run"

/-! ## Claim theorems -/

/-- C1 (evaluation of the divergence).  On the error path, `imports` does
not restore the Working Directory Context: with a root importing
`github.com/a/a` whose vendored tree fails to crawl, the call returns the
propagated error with the working directory left at the vendored
subdirectory, not at the `["p"]` it started from.  The restoring
`os.Chdir(dir)` (line 123) runs only after a normal loop exit; the error
returns at lines 82, 112 and 119 skip it. -/
theorem c1_cwd_not_restored :
    (importsF envC1 2 ["p"] true ⟨["p"], [["p"]], []⟩).outcome = .err "walk failure" ∧
    (importsF envC1 2 ["p"] true ⟨["p"], [["p"]], []⟩).st.cwd
      = ["p", "vendor", "github.com/a/a"] ∧
    (["p", "vendor", "github.com/a/a"] : GoDir) ≠ ["p"] := by decide

/-- C2 (counterexample to the claim as stated).  With import set
`{"github.com/a/b"}` and a manifest already containing that identifier, the
constructed worklist still contains it — the manifest is not consulted at
worklist-construction time (lines 86-92 filter only by remoteness); the
run then skips the entry with an "already vendored" notice inside the loop. -/
theorem c2_counterexample :
    filteredImports (["github.com/a/b"].dedup) = ["github.com/a/b"] ∧
    "github.com/a/b" ∈ (["github.com/a/b"] : List GoPkg) ∧
    (importsF envC2 1 ["p"] true ⟨["p"], [["p"]], ["github.com/a/b"]⟩).tr
      = [Ev.crawl ["p"], Ev.notice "github.com/a/b"] := by decide

/-- C2 (amended).  The worklist keeps exactly the remote-classified
identifiers of the deduplicated import set, regardless of the manifest;
identifiers already in the manifest are instead skipped by the per-entry
check inside the processing loop, so no identifier in the manifest at the
moment its entry is processed is ever passed to the fetch operation. -/
theorem c2_worklist_remote_only :
    (∀ (used : List GoPkg) (p : GoPkg),
      p ∈ filteredImports used ↔ p ∈ used ∧ packageIsRemoteDependency p = true) ∧
    (∀ (env : Env) (n : Nat) (dir : GoDir) (isRoot : Bool) (s : St) (p : GoPkg)
      (m : List GoPkg), Ev.fetchCall p m ∈ (importsF env n dir isRoot s).tr → p ∉ m) := by
  constructor
  · intro used p
    simp [filteredImports, List.mem_filter]
  · intro env n dir isRoot s p m h
    exact (importsF_guard env n dir isRoot s p m h).1

theorem c2_witness :
    Ev.fetchCall "github.com/a/a" [] ∈
      (importsF envC1 2 ["p"] true ⟨["p"], [["p"]], []⟩).tr ∧
    "github.com/a/a" ∉ ([] : List GoPkg) :=
  ⟨by decide, c2_worklist_remote_only.2 envC1 2 ["p"] true ⟨["p"], [["p"]], []⟩
    "github.com/a/a" [] (by decide)⟩

/-- C3 (amended).  The classifier returns false on exactly the syntactically
local references — `"."`, `".."`, or a `"./"`/`"../"` prefix (Go
`build.IsLocalImport` also covers the bare `"."` and `".."`, which the claim
omitted); for any other identifier it returns false when parsing
`"http://" ++ name` fails, and otherwise returns whether the parsed host
component contains a literal dot; and on the spec's examples it returns
false for `"fmt"`, true for `"github.com/user/repo"`, false for
`"./local/pkg"`. -/
theorem c3_classifier :
    (∀ name : String, isLocalImport name = true ↔
      (name = "." ∨ name = ".." ∨ "./".data <+: name.data ∨ "../".data <+: name.data)) ∧
    (∀ name : String, isLocalImport name = true → packageIsRemoteDependency name = false) ∧
    (∀ name : String, isLocalImport name = false →
      packageIsRemoteDependency name =
        (match parseHttpHost name with
         | none => false
         | some host => host.contains '.')) ∧
    packageIsRemoteDependency "fmt" = false ∧
    packageIsRemoteDependency "github.com/user/repo" = true ∧
    packageIsRemoteDependency "./local/pkg" = false := by
  refine ⟨?_, ?_, ?_, by decide, by decide, by decide⟩
  · intro name
    simp [isLocalImport, List.isPrefixOf_iff_prefix, or_assoc]
  · intro name h
    simp [packageIsRemoteDependency, h]
  · intro name h
    simp [packageIsRemoteDependency, h]

/-- C3 (counterexample to the claim as stated).  The identifier `"."` does
not begin with `"./"` or `"../"`, parsing `"http://."` succeeds with host
`"."`, which contains a literal dot — so the claimed procedure classifies it
as remote — yet the classifier returns false, because
`build.IsLocalImport` also treats the bare `"."` as local. -/
theorem c3_counterexample :
    packageIsRemoteDependency "." = false ∧
    ("./".data.isPrefixOf ".".data || "../".data.isPrefixOf ".".data) = false ∧
    parseHttpHost "." = some ['.'] ∧
    (['.'] : List Char).contains '.' = true := by decide

theorem c3_witness :
    isLocalImport "./local/pkg" = true ∧
    packageIsRemoteDependency "./local/pkg" = false :=
  ⟨by decide, c3_classifier.2.1 "./local/pkg" (by decide)⟩

/-- C4.  When the fetch operation fails for an identifier `p` (with error
`e`), any run that passes `p` to the fetch operation aborts with exactly
that error — propagated unchanged through every ancestor call — and the
failing fetch call is the last event of the whole run: no subsequent
worklist entry at any level is crawled, delayed, fetched or skipped after
the failure. -/
theorem c4_fetch_failure_aborts (env : Env) (p : GoPkg) (e : String)
    (henv : ∀ c, env.fetch c p = .fail e) (n : Nat) (dir : GoDir) (isRoot : Bool)
    (s : St) (m : List GoPkg)
    (h : Ev.fetchCall p m ∈ (importsF env n dir isRoot s).tr) :
    (importsF env n dir isRoot s).outcome = .err e ∧
    ∃ pre m2, (importsF env n dir isRoot s).tr = pre ++ [Ev.fetchCall p m2] :=
  importsF_abort env p e henv n dir isRoot s ⟨m, h⟩

theorem c4_witness :
    Ev.fetchCall "github.com/a/a" [] ∈
      (importsF envC4 1 ["p"] true ⟨["p"], [["p"]], []⟩).tr ∧
    (importsF envC4 1 ["p"] true ⟨["p"], [["p"]], []⟩).outcome
      = .err "network unreachable" ∧
    ∃ pre m2, (importsF envC4 1 ["p"] true ⟨["p"], [["p"]], []⟩).tr
      = pre ++ [Ev.fetchCall "github.com/a/a" m2] :=
  ⟨by decide, c4_fetch_failure_aborts envC4 "github.com/a/a" "network unreachable"
    (fun _ => rfl) 1 ["p"] true ⟨["p"], [["p"]], []⟩ [] (by decide)⟩

/-- C5.  Throughout a run, an identifier that is in the manifest at the
moment its worklist entry is processed is never passed to the fetch
operation: every fetch call records a manifest snapshot that does not
contain its package, and every snapshot extends the manifest the run
started with; in particular an identifier present in the manifest before
the run starts is never fetched. -/
theorem c5_manifest_skip (env : Env) (n : Nat) (dir : GoDir) (isRoot : Bool) (s : St) :
    (∀ p m, Ev.fetchCall p m ∈ (importsF env n dir isRoot s).tr →
      p ∉ m ∧ s.manifest <+: m) ∧
    (∀ p, p ∈ s.manifest → ∀ m, Ev.fetchCall p m ∉ (importsF env n dir isRoot s).tr) := by
  constructor
  · intro p m h
    exact importsF_guard env n dir isRoot s p m h
  · intro p hp m h
    obtain ⟨hnot, hpref⟩ := importsF_guard env n dir isRoot s p m h
    exact hnot (hpref.subset hp)

theorem c5_witness :
    "github.com/a/b" ∈ (["github.com/a/b"] : List GoPkg) ∧
    Ev.fetchCall "github.com/a/b" [] ∉
      (importsF envC2 1 ["p"] true ⟨["p"], [["p"]], ["github.com/a/b"]⟩).tr :=
  ⟨by decide, (c5_manifest_skip envC2 1 ["p"] true
    ⟨["p"], [["p"]], ["github.com/a/b"]⟩).2 "github.com/a/b" (by decide) []⟩

/-- C6.  A call runs the Tree Import Collector over its directory iff it is
the root call or the vendor-storage directory under the current working
directory does not exist; when `isRoot` is false and that directory exists,
the crawl is skipped and the call does nothing at all beyond the final
working-directory restoration: empty worklist, no events, manifest and tree
unchanged. -/
theorem c6_crawl_condition (env : Env) (n : Nat) (dir : GoDir) (isRoot : Bool) (s : St) :
    (Ev.crawl dir ∈ (importsF env (n + 1) dir isRoot s).tr ↔
      (isRoot = true ∨ vdir s.cwd ∉ s.fs)) ∧
    (isRoot = false → vdir s.cwd ∈ s.fs →
      importsF env (n + 1) dir isRoot s = ⟨.ok, chdirAttempt s dir, []⟩) := by
  have hskip : isRoot = false → vdir s.cwd ∈ s.fs →
      importsF env (n + 1) dir isRoot s = ⟨.ok, chdirAttempt s dir, []⟩ := by
    intro hroot hv
    subst hroot
    rw [show importsF env (n + 1) dir false s =
      importsStep env (fun d s' => importsF env n d false s') dir false s from rfl]
    exact importsStep_skip env _ dir s hv
  refine ⟨⟨?_, ?_⟩, hskip⟩
  · intro hmem
    by_contra hcond
    push_neg at hcond
    obtain ⟨hroot, hv⟩ := hcond
    have hroot2 : isRoot = false := by
      revert hroot
      cases isRoot <;> simp
    rw [hskip hroot2 hv] at hmem
    exact absurd hmem (by simp)
  · intro hcond
    have hdo : (isRoot || !decide (vdir s.cwd ∈ s.fs)) = true := by
      rcases hcond with h | h
      · rw [h]; simp
      · simp [h]
    rw [show importsF env (n + 1) dir isRoot s =
      importsStep env (fun d s' => importsF env n d false s') dir isRoot s from rfl]
    cases hc : env.collect dir with
    | error e =>
      rw [importsStep_crawl_error env _ dir isRoot s e hdo hc]
      simp
    | ok used =>
      rw [importsStep_crawl_eq env _ dir isRoot s used hdo hc]
      dsimp only
      cases ho : (loopF env (fun d s' => importsF env n d false s')
          (filteredImports used.dedup) s).outcome <;> simp

theorem c6_witness :
    vdir (["p"] : GoDir) ∈ [["p"], ["p", "vendor"]] ∧
    importsF envC6 1 ["q"] false ⟨["p"], [["p"], ["p", "vendor"]], []⟩
      = ⟨.ok, chdirAttempt ⟨["p"], [["p"], ["p", "vendor"]], []⟩ ["q"], []⟩ :=
  ⟨by decide, (c6_crawl_condition envC6 0 ["q"] false
    ⟨["p"], [["p"], ["p", "vendor"]], []⟩).2 rfl (by decide)⟩

/-- C10.  After a successful fetch that did not materialize the target
directory, the failed `os.Chdir` is ignored: no error is reported for that
step, and the recursive call proceeds from the directory the process was
already in (the pre-fetch working directory), with only the outcome of the
recursion (and of the remaining worklist) determining the result. -/
theorem c10_chdir_error_ignored (env : Env) (rec : GoDir → St → Res) (pkg : GoPkg)
    (rest : List GoPkg) (s : St) (b : Bool)
    (hm : pkg ∉ s.manifest)
    (hf : env.fetch s.cwd pkg = .ok false b)
    (hdir : (s.cwd ++ ["vendor", pkg]) ∉ s.fs) :
    loopF env rec (pkg :: rest) s =
      (let r := rec s.cwd { s with manifest := s.manifest ++ [pkg] }
       let tr1 : List Ev :=
         if "github.com".data.isPrefixOf pkg.data then [Ev.delay pkg] else []
       match r.outcome with
       | .ok =>
         ⟨(loopF env rec rest r.st).outcome, (loopF env rec rest r.st).st,
           tr1 ++ Ev.fetchCall pkg s.manifest :: (r.tr ++ (loopF env rec rest r.st).tr)⟩
       | o => ⟨o, r.st, tr1 ++ Ev.fetchCall pkg s.manifest :: r.tr⟩) := by
  rw [loopF, if_neg hm, hf]
  have hfs : ({ s with
      manifest := s.manifest ++ [pkg]
      fs := s.fs ++ (if false = true then
        (s.cwd ++ ["vendor", pkg]) ::
          (if b = true then [vdir (s.cwd ++ ["vendor", pkg])] else [])
        else []) } : St)
      = { s with manifest := s.manifest ++ [pkg] } := by
    show ({ s with
      manifest := s.manifest ++ [pkg]
      fs := s.fs ++ [] } : St)
      = { s with manifest := s.manifest ++ [pkg] }
    rw [List.append_nil]
  dsimp only
  rw [hfs]
  have hch : chdirAttempt { s with manifest := s.manifest ++ [pkg] }
      (s.cwd ++ ["vendor", pkg]) = { s with manifest := s.manifest ++ [pkg] } := by
    unfold chdirAttempt
    rw [if_neg hdir]
  rw [hch]

/-- Import structure with a dependency cycle: the root imports `A`, `A`
imports `B`, and `B` imports `A` back. -/
def cycleCollect (A B : GoPkg) : GoDir → Except String (List GoPkg)
  | ["p"] => .ok [A]
  | ["p", "vendor", x] => if x = A then .ok [B] else .ok []
  | ["p", "vendor", x, "vendor", y] => if x = A ∧ y = B then .ok [A] else .ok []
  | _ => .ok []

def cycleEnv (A B : GoPkg) : Env where
  collect := cycleCollect A B
  fetch _ _ := .ok true false

/-- C8.  For any two distinct remote-classified, fetchable packages `A` and
`B` with `A` importing `B` and `B` importing `A`, the recursive
orchestration terminates: the run completes normally with manifest exactly
`[A, B]`, and the second visit to `A` is pruned by the manifest-membership
check (the "already vendored" notice appears in the trace instead of a
second fetch). -/
theorem c8_cycle_terminates (A B : GoPkg)
    (hA : packageIsRemoteDependency A = true)
    (hB : packageIsRemoteDependency B = true)
    (hAB : A ≠ B) :
    (cmdImportsF (cycleEnv A B) 3 ⟨["p"], [["p"]], []⟩).outcome = .ok ∧
    (cmdImportsF (cycleEnv A B) 3 ⟨["p"], [["p"]], []⟩).st.manifest = [A, B] ∧
    Ev.notice A ∈ (cmdImportsF (cycleEnv A B) 3 ⟨["p"], [["p"]], []⟩).tr := by
  have hBA : ¬ (B = A) := fun h => hAB h.symm
  refine ⟨?_, ?_, ?_⟩ <;>
    simp [cmdImportsF, importsF, importsStep, loopF, filteredImports, chdirAttempt,
      eraseVendor, vdir, cycleEnv, cycleCollect, hA, hB, hAB, hBA]

theorem c8_witness :
    (cmdImportsF (cycleEnv "github.com/a/a" "github.com/b/b") 3
      ⟨["p"], [["p"]], []⟩).outcome = .ok ∧
    (cmdImportsF (cycleEnv "github.com/a/a" "github.com/b/b") 3
      ⟨["p"], [["p"]], []⟩).st.manifest = ["github.com/a/a", "github.com/b/b"] ∧
    Ev.notice "github.com/a/a" ∈
      (cmdImportsF (cycleEnv "github.com/a/a" "github.com/b/b") 3
        ⟨["p"], [["p"]], []⟩).tr :=
  c8_cycle_terminates "github.com/a/a" "github.com/b/b" (by decide) (by decide) (by decide)

theorem c9_witness :
    (⟨["p"], [["p"]], []⟩ : St).cwd ∈ (⟨["p"], [["p"]], []⟩ : St).fs ∧
    (cmdImportsF (cycleEnv "github.com/a/a" "github.com/b/b") 3
      ⟨["p"], [["p"]], []⟩).outcome = .ok ∧
    cmdImportsF (cycleEnv "github.com/a/a" "github.com/b/b") 3
        ((cmdImportsF (cycleEnv "github.com/a/a" "github.com/b/b") 3
          ⟨["p"], [["p"]], []⟩).st)
      = cmdImportsF (cycleEnv "github.com/a/a" "github.com/b/b") 3 ⟨["p"], [["p"]], []⟩ :=
  ⟨by decide, by decide,
    c9_idempotent (cycleEnv "github.com/a/a" "github.com/b/b") 3 ⟨["p"], [["p"]], []⟩
      (by decide) (by decide)⟩

/-- Root import list for the closure witness environment. -/
def c7R : List GoPkg := ["github.com/a/a", "strings"]

/-- Per-package import lists for the closure witness environment. -/
def c7I : GoPkg → List GoPkg :=
  fun q => if q = "github.com/a/a" then ["github.com/b/b", "fmt"] else []

/-- Collector of the closure witness environment: a directory vendored as
package `q` anywhere crawls to `c7I q`; everything else is the root. -/
def c7collect (d : GoDir) : Except String (List GoPkg) :=
  match d.reverse with
  | q :: "vendor" :: _ => .ok (c7I q)
  | _ => .ok c7R

def envC7 : Env where
  collect := c7collect
  fetch _ _ := .ok true false

theorem c7_witness :
    envC7.collect (⟨["proj"], [["proj"], ["proj", "vendor", "old"], ["junk"]],
      ["stale"]⟩ : St).cwd = .ok c7R ∧
    (∀ x q, envC7.collect (x ++ ["vendor", q]) = .ok (c7I q)) ∧
    (∀ c q, envC7.fetch c q = .ok true false) ∧
    (cmdImportsF envC7 3
      ⟨["proj"], [["proj"], ["proj", "vendor", "old"], ["junk"]], ["stale"]⟩).outcome
      = .ok ∧
    (∀ p, p ∈ (cmdImportsF envC7 3
        ⟨["proj"], [["proj"], ["proj", "vendor", "old"], ["junk"]], ["stale"]⟩).st.manifest
      ↔ Reach c7R c7I p) :=
  ⟨rfl, fun x q => by simp [c7collect, envC7, List.reverse_append], fun c q => rfl,
    by decide,
    c7_root_rebuild_closure envC7 c7R c7I 3
      ⟨["proj"], [["proj"], ["proj", "vendor", "old"], ["junk"]], ["stale"]⟩ rfl
      (fun x q => by simp [c7collect, envC7, List.reverse_append]) (fun c q => rfl)
      (by decide)⟩

/-- Environment for the ignored-chdir witness: fetch succeeds but does not
materialize the directory. -/
def envC10 : Env where
  collect _ := .ok []
  fetch _ _ := .ok false false

/-- A trivial recursion stub for exercising the loop step in isolation. -/
def rec10 : GoDir → St → Res := fun _ s => ⟨.ok, s, []⟩

theorem c10_witness :
    ("github.com/a/a" ∉ (⟨["p"], [["p"]], []⟩ : St).manifest) ∧
    envC10.fetch (⟨["p"], [["p"]], []⟩ : St).cwd "github.com/a/a" = .ok false false ∧
    ((⟨["p"], [["p"]], []⟩ : St).cwd ++ ["vendor", "github.com/a/a"])
      ∉ (⟨["p"], [["p"]], []⟩ : St).fs ∧
    loopF envC10 rec10 ["github.com/a/a"] ⟨["p"], [["p"]], []⟩ =
      (let r := rec10 ["p"] ⟨["p"], [["p"]], ["github.com/a/a"]⟩
       let tr1 : List Ev :=
         if "github.com".data.isPrefixOf "github.com/a/a".data
         then [Ev.delay "github.com/a/a"] else []
       match r.outcome with
       | .ok =>
         ⟨(loopF envC10 rec10 [] r.st).outcome, (loopF envC10 rec10 [] r.st).st,
           tr1 ++ Ev.fetchCall "github.com/a/a" [] ::
             (r.tr ++ (loopF envC10 rec10 [] r.st).tr)⟩
       | o => ⟨o, r.st, tr1 ++ Ev.fetchCall "github.com/a/a" [] :: r.tr⟩) :=
  ⟨by decide, rfl, by decide,
    c10_chdir_error_ignored envC10 rec10 "github.com/a/a" [] ⟨["p"], [["p"]], []⟩ false
      (by decide) rfl (by decide)⟩
